import Mathlib

/-!
# Verification of the tapable hook/plugin dispatch engine

Shallow embedding of the core of the `tapable` repository:

* `src/lib/Hook.js` — tap registry (`_insert`, `intercept`,
  `_runRegisterInterceptors`, `_resetCompilation`, the lazy-compile delegates);
* `src/lib/HookCodeFactory.js` — dispatcher compiler (`callTap`,
  `callTapsSeries`, `callTapsLooping`, `callTapsParallel`, `create`);
* `src/lib/AsyncSeriesHook.js` — the series topology instantiated with the
  continuation ("async") calling convention.

The code generator emits JavaScript text; the embedding models the *behavior*
of the generated dispatchers (state-passing over explicit traces), plus the
registry algorithms, which are translated directly.
-/

namespace Tapable

/-- One registered subscriber (the tap options object built by `Hook._tap`).
Only the fields read by `Hook._insert` are carried here: `fn`, `type` and
`context` do not influence ordering.  `stage = none` models an absent stage
(`typeof item.stage === "number"` fails); `before = []` models an absent or
empty `before` (the two behave identically in `_insert`, since an empty Set
is truthy in JS but both its branches are skipped). -/
structure Tap where
  name : String
  stage : Option Int := none
  before : List String := []
  deriving Repr, DecidableEq

/-- Effective stage: `x.stage || 0` for scan elements, and
`typeof item.stage === "number" ? item.stage : 0` for the inserted item
(identical on integer stages). -/
def effStage (t : Tap) : Int := t.stage.getD 0

/-- The working set `new Set(item.before)`: duplicates collapse. -/
def beforeSet (t : Tap) : List String := t.before.dedup

/-- The backward scan of `Hook._insert` (Hook.js lines 182-202), expressed on
the *reversed* taps list: the JS loop walks `i` from `taps.length - 1` down
to `0`, shifting each visited tap one slot to the right; a visited tap that
makes the loop `continue` therefore ends up *after* the inserted item.
Head of the input list = last tap of the hook.
* `before.has(x.name)`: delete the name and keep scanning left;
* `before.size > 0`: keep scanning left;
* `xStage > stage`: keep scanning left;
* otherwise stop: the item lands immediately after `x`. -/
def insertRev (stage : Int) (item : Tap) : List String → List Tap → List Tap
  | _, [] => [item]
  | bef, x :: xs =>
    if x.name ∈ bef then
      x :: insertRev stage item (bef.erase x.name) xs
    else if bef ≠ [] then
      x :: insertRev stage item bef xs
    else if stage < effStage x then
      x :: insertRev stage item bef xs
    else
      item :: x :: xs

/-- The insertion routine `Hook._insert` (Hook.js lines 170-204), as a pure function on the taps
list (the `_resetCompilation` side effect is modelled separately in the
facade below). -/
def insertTap (taps : List Tap) (item : Tap) : List Tap :=
  (insertRev (effStage item) item (beforeSet item) taps.reverse).reverse

/-- Register a whole sequence of taps in order, starting from an empty hook. -/
def insertAll (items : List Tap) : List Tap :=
  items.foldl insertTap []

/-- The scan always keeps every previously registered tap. -/
theorem insertRev_perm (stage : Int) (item : Tap) :
    ∀ (bef : List String) (l : List Tap), (insertRev stage item bef l).Perm (item :: l) := by
  intro bef l
  induction l generalizing bef with
  | nil => simp [insertRev]
  | cons x xs ih =>
    simp only [insertRev]
    split
    · exact ((ih _).cons x).trans (List.Perm.swap _ _ _)
    · split
      · exact ((ih _).cons x).trans (List.Perm.swap _ _ _)
      · split
        · exact ((ih _).cons x).trans (List.Perm.swap _ _ _)
        · exact List.Perm.refl _

/-- The inserted item is always present afterwards. -/
theorem mem_insertTap (taps : List Tap) (item : Tap) : item ∈ insertTap taps item := by
  have h := insertRev_perm (effStage item) item (beforeSet item) taps.reverse
  have : item ∈ insertRev (effStage item) item (beforeSet item) taps.reverse :=
    (h.mem_iff).mpr (List.mem_cons_self _ _)
  simpa [insertTap] using this

/-- If some required `before` name matches no tap in the list, the scan walks
all the way to the front: every visited tap is shifted right and the item is
appended at the end of the reversed list. -/
theorem insertRev_unmatched (stage : Int) (item : Tap) (b : String) :
    ∀ (bef : List String) (l : List Tap), b ∈ bef → (∀ t ∈ l, t.name ≠ b) →
      insertRev stage item bef l = l ++ [item] := by
  intro bef l
  induction l generalizing bef with
  | nil => intro _ _; simp [insertRev]
  | cons x xs ih =>
    intro hb hnames
    have hxb : x.name ≠ b := hnames x (List.mem_cons_self _ _)
    have htail : ∀ t ∈ xs, t.name ≠ b := fun t ht => hnames t (List.mem_cons_of_mem _ ht)
    simp only [insertRev]
    by_cases hmem : x.name ∈ bef
    · rw [if_pos hmem, ih (bef.erase x.name) (List.mem_erase_of_ne (fun h => hxb h.symm) |>.mpr hb) htail]
      simp
    · rw [if_neg hmem, if_pos (List.ne_nil_of_mem hb), ih bef hb htail]
      simp

/-- C2. A tap whose `before` set contains a name matching no registered tap
is placed at index 0 and no error is raised (`insertTap` is total and the
result is exactly `item :: taps`). -/
theorem c2_unmatched_before_goes_front (taps : List Tap) (item : Tap) (b : String)
    (hb : b ∈ beforeSet item) (hnot : ∀ t ∈ taps, t.name ≠ b) :
    insertTap taps item = item :: taps := by
  unfold insertTap
  rw [insertRev_unmatched (effStage item) item b (beforeSet item) taps.reverse hb
    (fun t ht => hnot t (List.mem_reverse.mp ht))]
  simp

/-- With no `before` constraint the scan reduces to: walk left past every tap
of strictly larger stage, then stop.  On the reversed list this is exactly a
`takeWhile`/`dropWhile` split at the strict-stage predicate. -/
theorem insertRev_no_before (stage : Int) (item : Tap) (l : List Tap) :
    insertRev stage item [] l =
      l.takeWhile (fun x => decide (stage < effStage x)) ++
        item :: l.dropWhile (fun x => decide (stage < effStage x)) := by
  induction l with
  | nil => simp [insertRev]
  | cons x xs ih =>
    simp only [insertRev, List.not_mem_nil, if_false, ne_eq, not_true_eq_false,
      List.takeWhile_cons, List.dropWhile_cons, decide_eq_true_eq]
    by_cases hx : stage < effStage x
    · rw [if_pos hx, if_pos hx, if_pos hx, ih]
      simp
    · rw [if_neg hx, if_neg hx, if_neg hx]
      simp

/-- Inserting without `before`, in original order: the item lands after the
last tap of stage `≤` its own, i.e. between the reversals of the
`dropWhile`/`takeWhile` split of the reversed list. -/
theorem insertTap_no_before (taps : List Tap) (item : Tap) (h : item.before = []) :
    insertTap taps item =
      (taps.reverse.dropWhile (fun x => decide (effStage item < effStage x))).reverse ++
        item :: (taps.reverse.takeWhile (fun x => decide (effStage item < effStage x))).reverse := by
  unfold insertTap
  rw [show beforeSet item = [] by simp [beforeSet, h], insertRev_no_before]
  simp

/-- Any list splits as the reversed drop/take of its own reverse. -/
theorem eq_dropWhile_append_takeWhile (l : List Tap) (p : Tap → Bool) :
    l = (l.reverse.dropWhile p).reverse ++ (l.reverse.takeWhile p).reverse := by
  conv_lhs => rw [← l.reverse_reverse,
    ← List.takeWhile_append_dropWhile (p := p) (l := l.reverse), List.reverse_append]

/-- In a descending-sorted list, everything surviving the `dropWhile` at the
strict predicate has stage at most the inserted stage. -/
theorem dropWhile_stage_le (stage : Int) :
    ∀ (l : List Tap), List.Pairwise (fun a b => effStage b ≤ effStage a) l →
      ∀ a ∈ l.dropWhile (fun x => decide (stage < effStage x)), effStage a ≤ stage := by
  intro l
  induction l with
  | nil => simp
  | cons x xs ih =>
    intro hp a ha
    rw [List.dropWhile_cons] at ha
    simp only [decide_eq_true_eq] at ha
    by_cases hx : stage < effStage x
    · rw [if_pos hx] at ha
      exact ih (List.pairwise_cons.mp hp).2 a ha
    · rw [if_neg hx] at ha
      rcases List.mem_cons.mp ha with rfl | ha
      · omega
      · have h2 := (List.pairwise_cons.mp hp).1 a ha
        omega

/-- Inserting a `before`-free tap into a stage-sorted list keeps it sorted. -/
theorem insertTap_sorted (taps : List Tap) (item : Tap) (h : item.before = [])
    (hs : List.Sorted (fun a b => effStage a ≤ effStage b) taps) :
    List.Sorted (fun a b => effStage a ≤ effStage b) (insertTap taps item) := by
  have hsplit := eq_dropWhile_append_takeWhile taps
    (fun x => decide (effStage item < effStage x))
  have hrev : List.Pairwise (fun a b => effStage b ≤ effStage a) taps.reverse := by
    rw [List.pairwise_reverse]; exact hs
  have htaps : List.Pairwise (fun a b : Tap => effStage a ≤ effStage b)
      ((taps.reverse.dropWhile (fun x => decide (effStage item < effStage x))).reverse ++
        (taps.reverse.takeWhile (fun x => decide (effStage item < effStage x))).reverse) := by
    rw [← hsplit]; exact hs
  rw [List.pairwise_append] at htaps
  rw [insertTap_no_before taps item h]
  show List.Pairwise _ _
  rw [List.pairwise_append]
  refine ⟨htaps.1, ?_, ?_⟩
  · rw [List.pairwise_cons]
    refine ⟨?_, htaps.2.1⟩
    intro b hb
    have hbp := List.mem_takeWhile_imp (List.mem_reverse.mp hb)
    simp only [decide_eq_true_eq] at hbp
    omega
  · intro a ha b hb
    rcases List.mem_cons.mp hb with hb1 | hb
    · rw [hb1]
      exact dropWhile_stage_le (effStage item) taps.reverse hrev a (List.mem_reverse.mp ha)
    · exact htaps.2.2 a ha b hb

/-- Inserting a `before`-free tap appends it to its own stage class and leaves
every stage class's relative order untouched (no sortedness needed). -/
theorem filter_insertTap (taps : List Tap) (item : Tap) (h : item.before = []) (s : Int) :
    (insertTap taps item).filter (fun t => decide (effStage t = s)) =
      taps.filter (fun t => decide (effStage t = s)) ++
        (if effStage item = s then [item] else []) := by
  have hsplit := eq_dropWhile_append_takeWhile taps
    (fun x => decide (effStage item < effStage x))
  rw [insertTap_no_before taps item h]
  conv_rhs => rw [hsplit]
  simp only [List.filter_append, List.filter_reverse, List.filter_cons, decide_eq_true_eq]
  by_cases hqi : effStage item = s
  · have htake : (taps.reverse.takeWhile (fun x => decide (effStage item < effStage x))).filter
        (fun t => decide (effStage t = s)) = [] := by
      rw [List.filter_eq_nil_iff]
      intro a ha
      have hap := List.mem_takeWhile_imp ha
      simp only [decide_eq_true_eq] at hap
      simp only [decide_eq_true_eq]
      omega
    rw [if_pos hqi, if_pos hqi, htake]
    simp
  · rw [if_neg hqi, if_neg hqi]
    simp

/-- C1. Registering any sequence of taps without `before` constraints yields
a list sorted by ascending effective stage (default 0), and within each
stage class the insertion order is preserved (stated as: filtering the
resolved order at any stage value equals filtering the insertion order). -/
theorem c1_stage_sorted_stable (items : List Tap) (h : ∀ t ∈ items, t.before = []) :
    List.Sorted (fun a b => effStage a ≤ effStage b) (insertAll items) ∧
    ∀ s : Int, (insertAll items).filter (fun t => decide (effStage t = s)) =
      items.filter (fun t => decide (effStage t = s)) := by
  induction items using List.reverseRecOn with
  | nil => simp [insertAll]
  | append_singleton items x ih =>
    have hx : x.before = [] := h x (by simp)
    have hitems : ∀ t ∈ items, t.before = [] := fun t ht => h t (by simp [ht])
    have hall : insertAll (items ++ [x]) = insertTap (insertAll items) x := by
      simp [insertAll, List.foldl_append]
    obtain ⟨ihs, ihf⟩ := ih hitems
    constructor
    · rw [hall]; exact insertTap_sorted _ _ hx ihs
    · intro s
      rw [hall, filter_insertTap _ _ hx s, ihf s, List.filter_append]
      by_cases hxs : effStage x = s <;> simp [hxs]

theorem c1_witness :
    (∀ t ∈ [({ name := "a", stage := some 2 } : Tap), { name := "b", stage := some 1 },
        { name := "c", stage := some 0 }], t.before = []) ∧
    List.Sorted (fun a b => effStage a ≤ effStage b)
      (insertAll [{ name := "a", stage := some 2 }, { name := "b", stage := some 1 },
        { name := "c", stage := some 0 }]) ∧
    insertAll [{ name := "a", stage := some 2 }, { name := "b", stage := some 1 },
        { name := "c", stage := some 0 }] =
      [{ name := "c", stage := some 0 }, { name := "b", stage := some 1 },
        { name := "a", stage := some 2 }] :=
  ⟨by decide,
    (c1_stage_sorted_stable _ (by decide)).1,
    by decide⟩

theorem c2_witness :
    ("A" ∈ beforeSet { name := "C", before := ["A", "Z"] } ∧
      ∀ t ∈ [({ name := "B", stage := some (-5) } : Tap)], t.name ≠ "A") ∧
    insertTap [{ name := "B", stage := some (-5) }] { name := "C", before := ["A", "Z"] } =
      [{ name := "C", before := ["A", "Z"] }, { name := "B", stage := some (-5) }] :=
  ⟨⟨by decide, by decide⟩,
    c2_unmatched_before_goes_front _ _ "A" (by decide) (by decide)⟩

/-!
## Dispatcher semantics: series topology, continuation calling convention

`HookCodeFactory.create("async")` emits a function taking the hook args plus
a trailing `_callback`; `AsyncSeriesHook.content` links the taps with
`callTapsSeries`, passing `onError: (i, err, next, doneBreak) =>
onError(err) + doneBreak(true)` (emit the error on the convention channel and
stop, skipping the final `onDone`) and the convention's `onDone:
_callback()`.  The generated dispatcher is driven purely by continuation
calls, so its behavior is modelled as a state transformer over an explicit
trace.  An uncaught `throw` in the generated body aborts it; this is
modelled by an `exn` field that, once set, turns every later primitive into
a no-op. -/

/-- An exception escaping the generated dispatcher body: either the
`tapPromise` usage error thrown by `callTap` (promise case) or a late
rejection re-thrown by `if(_hasResult) throw _err`. -/
inductive Exn (E : Type) where
  | usage (msg : String)
  | rethrown (e : E)
  deriving Repr, DecidableEq

/-- Observable state of one dispatch under the continuation convention:
which tap functions were invoked (in order), the `_callback` invocations
(`none` = completion call with no error), and a pending uncaught throw. -/
structure AState (E : Type) where
  invoked : List Nat
  cbCalls : List (Option E)
  exn : Option (Exn E)
  deriving Repr, DecidableEq

def AState.init (E : Type) : AState E := ⟨[], [], none⟩

def emitInvoke {E : Type} (i : Nat) (s : AState E) : AState E :=
  if s.exn.isSome then s else { s with invoked := s.invoked ++ [i] }

def emitCb {E : Type} (c : Option E) (s : AState E) : AState E :=
  if s.exn.isSome then s else { s with cbCalls := s.cbCalls ++ [c] }

def throwExn {E : Type} (x : Exn E) (s : AState E) : AState E :=
  if s.exn.isSome then s else { s with exn := some x }

/-- The value a `tapPromise` tap function returns (callTap, case "promise"):
either a thenable — modelled by the list of settlement events its `then`
attachment delivers to the success/failure handlers, in order (a well-behaved
promise delivers exactly one) — or a falsy/then-less value, carried with its
string rendering used by the generated error message. -/
inductive PromVal (V E : Type) where
  | nonThenable (repr : String)
  | thenable (events : List (V ⊕ E))
  deriving Repr, DecidableEq

/-- Behavior of one registered tap function when the dispatcher invokes it:
* `sync out`: a direct tap that returns (`none`) or throws `e` (`some e`);
  under the continuation convention `rethrowIfPossible` is falsy, so the
  throw is always caught and routed to `onError`;
* `async out`: a continuation tap that calls its completion callback with no
  error (`none`) or with `e` (`some e`);
* `prom ret`: a deferred tap returning `ret`. -/
inductive TapBeh (V E : Type) where
  | sync (out : Option E)
  | async (out : Option E)
  | prom (ret : PromVal V E)
  deriving Repr, DecidableEq

/-- The tap kinds whose completion is a single direct/continuation signal,
and that signal.  (`prom` taps signal through their thenable instead.) -/
def TapBeh.simpleOut {V E : Type} : TapBeh V E → Option (Option E)
  | .sync o => some o
  | .async o => some o
  | .prom _ => none

/-- The per-tap unit `HookCodeFactory.callTap` under the continuation convention of a series
hook (no `onResult`; `rethrowIfPossible` falsy, so sync taps run guarded):
* sync: run the tap; on throw `onError`, else `onDone`;
* async: the generated completion callback dispatches on its error argument
  to `onError` or `onDone`;
* promise: `var _hasResult = false;` call the tap; a falsy/then-less return
  throws the usage error naming the value; otherwise attach
  `(_result) => { _hasResult = true; onDone() }` and
  `(_err) => { if (_hasResult) throw _err; onError(_err) }`. -/
def callTapBeh {V E : Type} (i : Nat) (b : TapBeh V E) (onError : E → AState E → AState E)
    (onDone : AState E → AState E) (s : AState E) : AState E :=
  let s1 := emitInvoke i s
  match b with
  | .sync (some e) => onError e s1
  | .sync none => onDone s1
  | .async (some e) => onError e s1
  | .async none => onDone s1
  | .prom (.nonThenable r) =>
      throwExn
        (.usage ("Tap function (tapPromise) did not return promise (returned " ++ r ++ ")")) s1
  | .prom (.thenable events) =>
      (events.foldl
        (fun (p : AState E × Bool) ev =>
          match ev with
          | Sum.inl _ => (onDone p.1, true)
          | Sum.inr e => if p.2 then (throwExn (.rethrown e) p.1, p.2) else (onError e p.1, p.2))
        (s1, false)).1

/-- The chain `callTapsSeries` as instantiated by `AsyncSeriesHook.content`: each tap's
continuation is the chain of the remaining taps, the per-tap `onError` emits
on the convention channel and stops (`doneBreak(true)` skips `onDone`), and
the terminal continuation is the given `onDone`.  The `_next` unrolling in
`callTapsSeries` only names parts of this chain to bound closure nesting; it
does not change which continuation runs, so the chain is modelled directly. -/
def callTapsSeriesBeh {V E : Type} (onDone : AState E → AState E) :
    Nat → List (TapBeh V E) → AState E → AState E
  | _, [], s => onDone s
  | i, b :: rest, s =>
      callTapBeh i b (fun e => emitCb (some e)) (callTapsSeriesBeh onDone (i + 1) rest) s

/-- The compiled `callAsync` dispatcher of a series hook
(`create("async")`: `onError err = _callback(err)`, `onDone = _callback()`). -/
def callAsyncSeries {V E : Type} (taps : List (TapBeh V E)) : AState E :=
  callTapsSeriesBeh (emitCb none) 0 taps (AState.init E)

/-- Index and error of the first failing completion in a list of outcomes. -/
def firstFail {E : Type} : List (Option E) → Option (Nat × E)
  | [] => none
  | some e :: _ => some (0, e)
  | none :: rest => (firstFail rest).map (fun p => (p.1 + 1, p.2))

theorem cons_range_shift (i n : Nat) :
    (i :: (List.range n).map fun x => i + 1 + x) = (List.range (n + 1)).map fun x => i + x := by
  rw [List.range_succ_eq_map]
  simp only [List.map_cons, Nat.add_zero, List.map_map]
  refine congrArg _ ?_
  exact List.map_congr_left (fun a _ => by simp [Function.comp]; omega)

/-- Main run lemma for a series chain of direct/continuation taps: starting
from any exception-free state, the chain invokes taps in order up to (and
including) the first failing tap, emits exactly one `_callback` call, and
raises no exception. -/
theorem seriesRunSimple {V E : Type} (taps : List (TapBeh V E)) (outs : List (Option E))
    (h : taps.map TapBeh.simpleOut = outs.map some) (i : Nat) (s : AState E)
    (hs : s.exn = none) :
    callTapsSeriesBeh (emitCb none) i taps s =
      match firstFail outs with
      | none =>
          { s with invoked := s.invoked ++ (List.range taps.length).map (fun x => i + x),
                   cbCalls := s.cbCalls ++ [none] }
      | some (k, e) =>
          { s with invoked := s.invoked ++ (List.range (k + 1)).map (fun x => i + x),
                   cbCalls := s.cbCalls ++ [some e] } := by
  induction taps generalizing outs i s with
  | nil =>
    have houts : outs = [] := by
      cases outs with
      | nil => rfl
      | cons o os => simp at h
    subst houts
    simp [callTapsSeriesBeh, emitCb, hs, firstFail]
  | cons b rest ih =>
    cases outs with
    | nil => simp at h
    | cons o os =>
      simp only [List.map_cons, List.cons.injEq] at h
      obtain ⟨hb, hrest⟩ := h
      have hinv : emitInvoke i s = { s with invoked := s.invoked ++ [i] } := by
        simp [emitInvoke, hs]
      cases b with
      | prom ret => simp [TapBeh.simpleOut] at hb
      | sync out =>
        have ho : o = out := by simpa [TapBeh.simpleOut] using hb.symm
        subst ho
        cases o with
        | some e =>
          simp only [callTapsSeriesBeh, callTapBeh, hinv, firstFail]
          simp [emitCb, hs, List.range_succ]
        | none =>
          simp only [callTapsSeriesBeh, callTapBeh, hinv]
          rw [ih os hrest (i + 1) _ (by simp [hs])]
          cases hf : firstFail os with
          | none =>
            simp only [firstFail, hf, Option.map_none]
            simp [← cons_range_shift, List.range_succ_eq_map]
            intro a ha
            omega
          | some p =>
            obtain ⟨k, e⟩ := p
            simp only [firstFail, hf, Option.map_some]
            simp [← cons_range_shift]
      | async out =>
        have ho : o = out := by simpa [TapBeh.simpleOut] using hb.symm
        subst ho
        cases o with
        | some e =>
          simp only [callTapsSeriesBeh, callTapBeh, hinv, firstFail]
          simp [emitCb, hs, List.range_succ]
        | none =>
          simp only [callTapsSeriesBeh, callTapBeh, hinv]
          rw [ih os hrest (i + 1) _ (by simp [hs])]
          cases hf : firstFail os with
          | none =>
            simp only [firstFail, hf, Option.map_none]
            simp [← cons_range_shift, List.range_succ_eq_map]
            intro a ha
            omega
          | some p =>
            obtain ⟨k, e⟩ := p
            simp only [firstFail, hf, Option.map_some]
            simp [← cons_range_shift]

/-- C3. A series hook under the continuation convention invokes the tap
callbacks strictly in resolved registration order; if tap `k` fails, taps
after `k` are never invoked and the trailing completion callback is invoked
exactly once, with that error as its first argument. -/
theorem c3_series_order_and_shortcircuit {V E : Type} (taps : List (TapBeh V E))
    (outs : List (Option E)) (h : taps.map TapBeh.simpleOut = outs.map some) :
    (firstFail outs = none →
      (callAsyncSeries taps).invoked = List.range taps.length ∧
      (callAsyncSeries taps).cbCalls = [none]) ∧
    (∀ k e, firstFail outs = some (k, e) →
      (callAsyncSeries taps).invoked = List.range (k + 1) ∧
      (callAsyncSeries taps).cbCalls = [some e]) := by
  have hrun := seriesRunSimple taps outs h 0 (AState.init E) rfl
  constructor
  · intro hf
    rw [hf] at hrun
    unfold callAsyncSeries
    rw [hrun]
    constructor <;> simp [AState.init]
  · intro k e hf
    rw [hf] at hrun
    unfold callAsyncSeries
    rw [hrun]
    constructor <;> simp [AState.init]

theorem c3_witness :
    ([TapBeh.async (V := Unit) none, TapBeh.async (some 5), TapBeh.async none].map
        TapBeh.simpleOut = [none, some 5, none].map some) ∧
    firstFail [none, some 5, none] = some (1, 5) ∧
    (callAsyncSeries [TapBeh.async (V := Unit) none, TapBeh.async (some 5),
        TapBeh.async none]).invoked = List.range (1 + 1) ∧
    (callAsyncSeries [TapBeh.async (V := Unit) none, TapBeh.async (some 5),
        TapBeh.async none]).cbCalls = [some 5] :=
  ⟨rfl, rfl,
    (c3_series_order_and_shortcircuit
      [TapBeh.async (V := Unit) none, TapBeh.async (some 5), TapBeh.async none]
      [none, some 5, none] rfl).2 1 5 rfl⟩

/-- Running a prefix of taps that all complete successfully just extends the
invocation trace and hands control to the rest of the chain. -/
theorem seriesRun_ok_lead {V E : Type} (rest : List (TapBeh V E)) :
    ∀ (pre : List (TapBeh V E)), (∀ b ∈ pre, b.simpleOut = some none) →
      ∀ (i : Nat) (s : AState E), s.exn = none →
        callTapsSeriesBeh (emitCb none) i (pre ++ rest) s =
          callTapsSeriesBeh (emitCb none) (i + pre.length) rest
            { s with invoked := s.invoked ++ (List.range pre.length).map (fun x => i + x) } := by
  intro pre
  induction pre with
  | nil =>
    intro _ i s _
    simp
  | cons b pre ih =>
    intro hpre i s hs
    have hb := hpre b (List.mem_cons_self _ _)
    have hpre' : ∀ x ∈ pre, x.simpleOut = some none :=
      fun x hx => hpre x (List.mem_cons_of_mem _ hx)
    have hinv : emitInvoke i s = { s with invoked := s.invoked ++ [i] } := by
      simp [emitInvoke, hs]
    have hstep : callTapsSeriesBeh (emitCb none) i ((b :: pre) ++ rest) s =
        callTapsSeriesBeh (emitCb none) (i + 1) (pre ++ rest)
          { s with invoked := s.invoked ++ [i] } := by
      cases b with
      | prom ret => simp [TapBeh.simpleOut] at hb
      | sync out =>
        cases out with
        | some e => simp [TapBeh.simpleOut] at hb
        | none =>
          simp only [List.cons_append, callTapsSeriesBeh, callTapBeh, hinv]
          rfl
      | async out =>
        cases out with
        | some e => simp [TapBeh.simpleOut] at hb
        | none =>
          simp only [List.cons_append, callTapsSeriesBeh, callTapBeh, hinv]
          rfl
    rw [hstep, ih hpre' (i + 1) _ (by simp [hs])]
    have harith : i + 1 + pre.length = i + (pre.length + 1) := by omega
    rw [harith]
    have hlist : s.invoked ++ [i] ++ (List.range pre.length).map (fun x => i + 1 + x) =
        s.invoked ++ (List.range (pre.length + 1)).map (fun x => i + x) := by
      rw [List.append_assoc, ← cons_range_shift]
      rfl
    simp only [List.length_cons, hlist]

/-!
## The deferred ("promise") calling convention

`create("promise")` wraps the same series body in a Promise executor:
`onError err = _error(err)` (which, while the body is still running
synchronously, resolves the returned promise with a freshly rejecting
promise — a deferred rejection carrying the same error — and after the body
has finished rejects directly), `onDone = _resolve()`.  The emission points
are identical to the continuation convention's, so the same trace model is
reused: a `cbCalls` entry `none` is a `_resolve()` call and `some e` an
`_error(e)` call.  A raw `throw` escaping the executor body (the `exn`
field) is caught by the Promise constructor, which rejects the returned
promise — unless it already settled, in which case the throw is swallowed.
All tap completions in this model are synchronous, so `_sync` is true
whenever `_error` runs.  The promise returned to the caller adopts the
first settlement. -/

/-- Settlement state, at dispatch-return time, of the deferred handle
returned by the promise convention. -/
inductive PromiseOutcome (E : Type) where
  | fulfilled
  | deferredReject (e : E)
  | ctorReject (x : Exn E)
  | pending
  deriving Repr, DecidableEq

/-- Map the dispatch trace to the returned promise's settlement: the first
`_resolve`/`_error` call wins; with no settlement, an escaped throw is
turned into a rejection by the Promise constructor. -/
def promiseOutcome {E : Type} (s : AState E) : PromiseOutcome E :=
  match s.cbCalls.head? with
  | some none => PromiseOutcome.fulfilled
  | some (some e) => PromiseOutcome.deferredReject e
  | none =>
      match s.exn with
      | some x => PromiseOutcome.ctorReject x
      | none => PromiseOutcome.pending

/-- The compiled `promise` dispatcher of a series hook: same body, emissions
reinterpreted per the convention (see the section comment). -/
def callPromiseSeries {V E : Type} (taps : List (TapBeh V E)) : PromiseOutcome E × List Nat :=
  (promiseOutcome (callAsyncSeries taps), (callAsyncSeries taps).invoked)

/-- C6. If a deferred-kind tap's callback returns a falsy or then-less
value, the dispatch fails at that tap with the usage error naming the
value's rendering, later taps are never invoked, and the error surfaces at
dispatch time in both calling conventions that admit deferred taps: under
the continuation convention the throw escapes `callAsync` synchronously
(no `_callback` call at all), and under the deferred convention the handle
returned at dispatch time is already rejected with that usage error. -/
theorem c6_nonthenable_usage_error {V E : Type} (pre post : List (TapBeh V E)) (r : String)
    (hpre : ∀ b ∈ pre, b.simpleOut = some none) :
    (callAsyncSeries (pre ++ TapBeh.prom (V := V) (E := E) (PromVal.nonThenable r) :: post)).exn =
      some (Exn.usage ("Tap function (tapPromise) did not return promise (returned " ++ r ++ ")")) ∧
    (callAsyncSeries (pre ++ TapBeh.prom (PromVal.nonThenable r) :: post)).invoked =
      List.range (pre.length + 1) ∧
    (callAsyncSeries (pre ++ TapBeh.prom (PromVal.nonThenable r) :: post)).cbCalls = [] ∧
    callPromiseSeries (pre ++ TapBeh.prom (PromVal.nonThenable r) :: post) =
      (PromiseOutcome.ctorReject
        (Exn.usage ("Tap function (tapPromise) did not return promise (returned " ++ r ++ ")")),
        List.range (pre.length + 1)) := by
  have hrun := seriesRun_ok_lead (TapBeh.prom (V := V) (E := E) (PromVal.nonThenable r) :: post)
    pre hpre 0 (AState.init E) rfl
  have hfinal : callAsyncSeries (pre ++ TapBeh.prom (V := V) (E := E)
      (PromVal.nonThenable r) :: post) =
      { invoked := List.range (pre.length + 1), cbCalls := [],
        exn := some (Exn.usage
          ("Tap function (tapPromise) did not return promise (returned " ++ r ++ ")")) } := by
    unfold callAsyncSeries
    rw [hrun]
    simp only [callTapsSeriesBeh, callTapBeh, AState.init]
    have h0 : ∀ n : Nat, (List.range n).map (fun x => 0 + x) = List.range n := by
      intro n
      simp
    simp only [emitInvoke, throwExn, AState.init, List.nil_append, h0, Option.isSome_none,
      Bool.false_eq_true, if_false]
    simp [List.range_succ]
  refine ⟨by rw [hfinal], by rw [hfinal], by rw [hfinal], ?_⟩
  unfold callPromiseSeries
  rw [hfinal]
  simp [promiseOutcome]

theorem c6_witness :
    (∀ b ∈ [TapBeh.async (V := Unit) (E := Nat) none], b.simpleOut = some none) ∧
    (callAsyncSeries ([TapBeh.async (V := Unit) (E := Nat) none] ++
        TapBeh.prom (PromVal.nonThenable "undefined") :: [TapBeh.async none])).exn =
      some (Exn.usage
        ("Tap function (tapPromise) did not return promise (returned " ++ "undefined" ++ ")")) ∧
    (callAsyncSeries ([TapBeh.async (V := Unit) (E := Nat) none] ++
        TapBeh.prom (PromVal.nonThenable "undefined") :: [TapBeh.async none])).invoked =
      List.range (1 + 1) :=
  ⟨by decide,
    (c6_nonthenable_usage_error [TapBeh.async none] [TapBeh.async none] "undefined"
      (by decide)).1,
    (c6_nonthenable_usage_error [TapBeh.async none] [TapBeh.async none] "undefined"
      (by decide)).2.1⟩

/-- One step of the chain at a double-settling thenable tap: the success
event runs the continuation (the rest of the chain), the late failure event
finds `_hasResult` set and re-throws. -/
theorem promLateStep {V E : Type} (post : List (TapBeh V E)) (outs : List (Option E))
    (hpost : post.map TapBeh.simpleOut = outs.map some) (v : V) (e : E) (i : Nat)
    (s : AState E) (hs : s.exn = none) :
    callTapsSeriesBeh (emitCb none) i
        (TapBeh.prom (PromVal.thenable [Sum.inl v, Sum.inr e]) :: post) s =
      { invoked := (s.invoked ++ [i]) ++
          (List.range (match firstFail outs with
            | none => post.length
            | some q => q.1 + 1)).map (fun x => i + 1 + x),
        cbCalls := s.cbCalls ++ [match firstFail outs with
          | none => none
          | some q => some q.2],
        exn := some (Exn.rethrown e) } := by
  have hinv : emitInvoke i s = { s with invoked := s.invoked ++ [i] } := by
    simp [emitInvoke, hs]
  simp only [callTapsSeriesBeh, callTapBeh, List.foldl_cons, List.foldl_nil, if_pos, hinv]
  rw [seriesRunSimple post outs hpost (i + 1)
    { invoked := s.invoked ++ [i], cbCalls := s.cbCalls, exn := s.exn } hs]
  cases hf : firstFail outs with
  | none => simp [throwExn, hs]
  | some q => simp [throwExn, hs]

/-- C7. A deferred-kind tap whose thenable first delivers a success and then
signals a failure: the success continues the chain normally (the convention
channel carries exactly the one terminal call produced by the remaining
taps), and the late failure is re-thrown (`if(_hasResult) throw _err`)
instead of being routed to `onError` — so neither the interceptor `error`
hooks (which `onError` would run first) nor the convention's error channel
ever see it. -/
theorem c7_late_failure_rethrown {V E : Type} (pre post : List (TapBeh V E))
    (outs : List (Option E)) (v : V) (e : E)
    (hpre : ∀ b ∈ pre, b.simpleOut = some none)
    (hpost : post.map TapBeh.simpleOut = outs.map some) :
    (callAsyncSeries (pre ++ TapBeh.prom (PromVal.thenable [Sum.inl v, Sum.inr e]) :: post)).exn =
      some (Exn.rethrown e) ∧
    (callAsyncSeries (pre ++ TapBeh.prom (PromVal.thenable [Sum.inl v, Sum.inr e]) :: post)).cbCalls =
      [match firstFail outs with | none => none | some q => some q.2] := by
  have hrun := seriesRun_ok_lead
    (TapBeh.prom (V := V) (E := E) (PromVal.thenable [Sum.inl v, Sum.inr e]) :: post)
    pre hpre 0 (AState.init E) rfl
  unfold callAsyncSeries
  rw [hrun, promLateStep post outs hpost v e (0 + pre.length) _ (by simp [AState.init])]
  simp [AState.init]

theorem c7_witness :
    ((∀ b ∈ ([] : List (TapBeh Unit Nat)), b.simpleOut = some none) ∧
      [TapBeh.async (V := Unit) (E := Nat) none].map TapBeh.simpleOut =
        [(none : Option Nat)].map some) ∧
    (callAsyncSeries (([] : List (TapBeh Unit Nat)) ++
        TapBeh.prom (PromVal.thenable [Sum.inl (), Sum.inr 3]) :: [TapBeh.async none])).exn =
      some (Exn.rethrown 3) :=
  ⟨⟨by decide, rfl⟩,
    (c7_late_failure_rethrown [] [TapBeh.async none] [none] () 3 (by decide) rfl).1⟩

/-!
## Concurrent topology (`callTapsParallel`)

For `N ≥ 2` taps the generated body is:
`var _counter = N; var _done = (function() { _callback(); });` then, for each
tap, `if(_counter <= 0) break;` followed by the tap invocation whose
completion callback is
`if(err) { if(_counter > 0) { <onError> } } else { if(--_counter === 0) _done(); }`.
The taps here are continuation-kind with deferred completions (the temporal
scenario of the claim: every tap is issued before any completes), so the
issue phase and the arrival-ordered completion events are modelled
separately. -/

/-- Shared state of one concurrent dispatch: the counter and the convention
channel's `_callback` invocations (`none` = the shared `_done` firing). -/
structure CState (E : Type) where
  counter : Int
  cbCalls : List (Option E)
  deriving Repr, DecidableEq

/-- Issue phase: each iteration checks `if(_counter <= 0) break;` before
invoking its tap.  Completions are deferred, so the counter is constant
during issuance. -/
def issuePhase (counter : Int) (n : Nat) : List Nat :=
  (List.range n).takeWhile (fun _ => decide (0 < counter))

/-- One completion event arriving at the shared state.  The error arm is
`callTapsParallel`'s guard `if(_counter > 0) { ... }` around the per-tap
`onError`; the body of that `onError` is modelled from the spec (the
concurrent hook's `content` wrapper is not in the source tree): "the counter
is forced to zero and the error path fires immediately", i.e.
`_callback(err); _counter = 0;`.  The success arm is the source's
`if(--_counter === 0) _done();` with `_done = () => _callback()`. -/
def parallelComplete {E : Type} (s : CState E) (out : Option E) : CState E :=
  match out with
  | some e =>
      if 0 < s.counter then { counter := 0, cbCalls := s.cbCalls ++ [some e] } else s
  | none =>
      if s.counter - 1 = 0 then
        { counter := s.counter - 1, cbCalls := s.cbCalls ++ [none] }
      else
        { counter := s.counter - 1, cbCalls := s.cbCalls }

/-- The whole concurrent dispatch: issue all `n` taps from the initial
counter `n`, then process the completion events in arrival order. -/
def parallelRun {E : Type} (n : Nat) (arrivals : List (Option E)) : List Nat × CState E :=
  (issuePhase (n : Int) n, arrivals.foldl parallelComplete ⟨(n : Int), []⟩)

theorem takeWhile_const_true (l : List Nat) (p : Nat → Bool) (h : ∀ x, p x = true) :
    l.takeWhile p = l := by
  induction l with
  | nil => rfl
  | cons x xs ih => simp [List.takeWhile_cons, h, ih]

/-- Successful completions while more remain than the counter covers: each
one just decrements; the shared done handler never fires. -/
theorem parallel_ok_under {E : Type} :
    ∀ (l : List (Option E)) (c : Int) (L : List (Option E)),
      (∀ o ∈ l, o = none) → (l.length : Int) < c →
      l.foldl parallelComplete ⟨c, L⟩ = ⟨c - l.length, L⟩ := by
  intro l
  induction l with
  | nil =>
    intro c L _ _
    simp
  | cons o rest ih =>
    intro c L hall hlt
    have ho : o = none := hall o (List.mem_cons_self _ _)
    subst ho
    have hlen : ((rest.length : Int)) < c - 1 := by
      simp only [List.length_cons] at hlt
      push_cast at hlt ⊢
      omega
    have hne : ¬ (c - 1 = 0) := by
      have : (0 : Int) ≤ rest.length := by positivity
      omega
    simp only [List.foldl_cons, parallelComplete, if_neg hne]
    rw [ih (c - 1) L (fun x hx => hall x (List.mem_cons_of_mem _ hx)) hlen]
    simp only [List.length_cons]
    congr 1
    push_cast
    omega

/-- Exactly as many successful completions as the counter: the last one
drives the counter to zero and fires the shared done handler once. -/
theorem parallel_ok_full {E : Type} :
    ∀ (l : List (Option E)) (c : Int) (L : List (Option E)),
      (∀ o ∈ l, o = none) → (l.length : Int) = c → 0 < c →
      l.foldl parallelComplete ⟨c, L⟩ = ⟨0, L ++ [none]⟩ := by
  intro l
  induction l with
  | nil =>
    intro c L _ hlen hpos
    simp at hlen
    omega
  | cons o rest ih =>
    intro c L hall hlen hpos
    have ho : o = none := hall o (List.mem_cons_self _ _)
    subst ho
    have hrest : ∀ x ∈ rest, x = none := fun x hx => hall x (List.mem_cons_of_mem _ hx)
    simp only [List.length_cons] at hlen
    cases rest with
    | nil =>
      have hc : c = 1 := by simp at hlen; omega
      subst hc
      simp [parallelComplete]
    | cons o2 rest2 =>
      have hne : ¬ (c - 1 = 0) := by
        simp only [List.length_cons] at hlen
        push_cast at hlen
        omega
      simp only [List.foldl_cons, parallelComplete, if_neg hne]
      exact ih (c - 1) L hrest (by push_cast at hlen ⊢; omega)
        (by simp only [List.length_cons] at hlen; push_cast at hlen; omega)

/-- After a short-circuit (counter at or below zero) no further arrival has
any effect on the convention channel: errors are guarded out by
`if(_counter > 0)` and successes only push the counter further negative, so
`--_counter === 0` never fires the done handler again. -/
theorem parallel_inert {E : Type} :
    ∀ (l : List (Option E)) (s : CState E), s.counter ≤ 0 →
      (l.foldl parallelComplete s).cbCalls = s.cbCalls := by
  intro l
  induction l with
  | nil =>
    intro s _
    rfl
  | cons o rest ih =>
    intro s hle
    cases o with
    | some e =>
      have hng : ¬ (0 < s.counter) := by omega
      simp only [List.foldl_cons, parallelComplete, if_neg hng]
      exact ih s hle
    | none =>
      have hne : ¬ (s.counter - 1 = 0) := by omega
      simp only [List.foldl_cons, parallelComplete, if_neg hne]
      exact ih _ (by simp; omega)

/-- C4. Concurrent dispatch with `N ≥ 2` taps: the counter starts at `N` and
every tap is issued; if every completion succeeds, the shared done handler
fires exactly once, at the `N`-th completion (every proper prefix of
arrivals produces no `_callback` call at all); if some tap fails first
(counter still positive), the error channel fires exactly once with that
error, the counter is forced to zero at that moment, and all arrivals after
the short-circuit leave the channel untouched. -/
theorem c4_parallel_counter_join {E : Type} (n : Nat) (hn : 2 ≤ n) :
    (issuePhase (n : Int) n = List.range n) ∧
    (∀ arrivals : List (Option E), arrivals.length = n → (∀ o ∈ arrivals, o = none) →
      (parallelRun n arrivals).2 = ⟨0, [none]⟩ ∧
      ∀ k, k < n →
        ((arrivals.take k).foldl parallelComplete ⟨(n : Int), []⟩).cbCalls = []) ∧
    (∀ (pres rest : List (Option E)) (e : E), (∀ o ∈ pres, o = none) →
      pres.length + 1 + rest.length = n →
      parallelComplete (pres.foldl parallelComplete ⟨(n : Int), []⟩) (some e) =
        ⟨0, [some e]⟩ ∧
      ((pres ++ some e :: rest).foldl parallelComplete ⟨(n : Int), ([] : List (Option E))⟩).cbCalls =
        [some e]) := by
  refine ⟨?_, ?_, ?_⟩
  · exact takeWhile_const_true _ _ (fun _ => by
      simp only [decide_eq_true_eq]
      positivity)
  · intro arrivals hlen hall
    constructor
    · unfold parallelRun
      simp only
      exact parallel_ok_full arrivals (n : Int) [] hall (by rw [hlen]) (by positivity)
    · intro k hk
      have htake : ∀ o ∈ arrivals.take k, o = none :=
        fun o ho => hall o (List.mem_of_mem_take ho)
      have hklen : ((arrivals.take k).length : Int) < (n : Int) := by
        have := List.length_take_le k arrivals
        have h2 : (arrivals.take k).length ≤ k := by simp
        exact_mod_cast lt_of_le_of_lt h2 hk
      rw [parallel_ok_under (arrivals.take k) (n : Int) [] htake hklen]
  · intro pres rest e hall hlen
    have hpreslt : ((pres.length : Int)) < (n : Int) := by exact_mod_cast by omega
    have hpres := parallel_ok_under pres (n : Int) [] hall hpreslt
    have hstep : parallelComplete (pres.foldl parallelComplete ⟨(n : Int), []⟩) (some e) =
        ⟨0, [some e]⟩ := by
      rw [hpres]
      simp only [parallelComplete, if_pos (by omega : (0 : Int) < (n : Int) - pres.length)]
      simp
    refine ⟨hstep, ?_⟩
    rw [List.foldl_append, List.foldl_cons, hstep]
    exact parallel_inert rest ⟨0, [some e]⟩ (by simp)

theorem c4_witness :
    (2 ≤ 3 ∧ (∀ o ∈ [(none : Option Nat)], o = none) ∧ 1 + 1 + 1 = 3) ∧
    issuePhase ((3 : Nat) : Int) 3 = List.range 3 ∧
    (([(none : Option Nat)] ++ some 7 :: [none]).foldl parallelComplete
        ⟨((3 : Nat) : Int), ([] : List (Option Nat))⟩).cbCalls = [some 7] :=
  ⟨⟨by omega, by decide, by decide⟩,
    (c4_parallel_counter_join (E := Nat) 3 (by omega)).1,
    ((c4_parallel_counter_join (E := Nat) 3 (by omega)).2.2 [none] [none] 7
      (by decide) (by decide)).2⟩

/-!
## Looping-series topology (`callTapsLooping`), direct taps

With only direct taps (`syncOnly`), `callTapsLooping` emits
`var _loop; do { _loop = false; <series with onResult: if(result !==
undefined) { _loop = true; doneBreak(true) } else next(); onDone:
if(!_loop) onDone()> } while(_loop);`.  The first tap of a pass returning a
defined value sets `_loop`, breaks out of the pass (skipping the remaining
taps and the final `onDone`), and the `do/while` restarts the series from
tap 0; a pass in which every tap returns `undefined` falls through to
`onDone` with `_loop` false and the loop exits.  Taps are modelled as
functions from the pass number to their result for that pass (`none` = the
empty sentinel `undefined`); `fuel` bounds how many passes are modelled. -/

/-- One pass of the loop: the series chain starting at tap index `i`.
Returns the invoked tap indices and the `_loop` flag. -/
def loopPassGo {V : Type} (p : Nat) : Nat → List (Nat → Option V) → List Nat × Bool
  | _, [] => ([], false)
  | i, f :: rest =>
    match f p with
    | some _ => ([i], true)
    | none => ((i :: (loopPassGo p (i + 1) rest).1), (loopPassGo p (i + 1) rest).2)

/-- The `do/while(_loop)` driving loop, bounded by `fuel` passes: returns
the trace of (pass, tap index) invocations and whether the dispatch
completed within the fuel. -/
def loopRun {V : Type} (taps : List (Nat → Option V)) : Nat → Nat → List (Nat × Nat) × Bool
  | 0, _ => ([], false)
  | fuel + 1, p =>
    if (loopPassGo p 0 taps).2 then
      (((loopPassGo p 0 taps).1.map (fun i => (p, i))) ++ (loopRun taps fuel (p + 1)).1,
        (loopRun taps fuel (p + 1)).2)
    else ((loopPassGo p 0 taps).1.map (fun i => (p, i)), true)

/-- The compiled `call` dispatcher of a direct-convention looping hook.
Modelled from the spec: the concrete looping hook class wiring
`callTapsLooping` into `create("sync")` is not in the source tree; per the
spec the direct convention's `onDone` for a looping hook is empty and the
generated body has no trailing return, so a completing dispatch returns the
empty sentinel (`some none` here; `none` = still looping when the fuel runs
out). -/
def syncLoopCall {V : Type} (taps : List (Nat → Option V)) (fuel : Nat) : Option (Option V) :=
  if (loopRun taps fuel 0).2 then some none else none

/-- A pass over taps that all return the empty sentinel invokes every tap
and leaves `_loop` unset. -/
theorem loopPassGo_all_none {V : Type} (p : Nat) :
    ∀ (taps : List (Nat → Option V)), (∀ f ∈ taps, f p = none) →
      ∀ i, loopPassGo p i taps = ((List.range taps.length).map (fun x => i + x), false) := by
  intro taps
  induction taps with
  | nil =>
    intro _ i
    simp [loopPassGo]
  | cons f rest ih =>
    intro hall i
    have hf : f p = none := hall f (List.mem_cons_self _ _)
    simp only [loopPassGo, hf]
    rw [ih (fun g hg => hall g (List.mem_cons_of_mem _ hg)) (i + 1)]
    simp only [List.length_cons]
    rw [cons_range_shift]

/-- A pass whose first defined result is at tap `pre.length` invokes exactly
taps `0..pre.length` and sets `_loop`. -/
theorem loopPassGo_first_defined {V : Type} (p : Nat) :
    ∀ (pre : List (Nat → Option V)) (f : Nat → Option V) (rest : List (Nat → Option V)),
      (∀ g ∈ pre, g p = none) → (f p).isSome →
      ∀ i, loopPassGo p i (pre ++ f :: rest) =
        ((List.range (pre.length + 1)).map (fun x => i + x), true) := by
  intro pre
  induction pre with
  | nil =>
    intro f rest _ hf i
    obtain ⟨v, hv⟩ := Option.isSome_iff_exists.mp hf
    simp [loopPassGo, hv, List.range_succ]
  | cons g pre ih =>
    intro f rest hall hf i
    have hg : g p = none := hall g (List.mem_cons_self _ _)
    simp only [List.cons_append, loopPassGo, hg, List.append_eq]
    rw [ih f rest (fun x hx => hall x (List.mem_cons_of_mem _ hx)) hf (i + 1)]
    simp only [List.length_cons]
    rw [cons_range_shift]

/-- Every nonempty pass begins at its starting index. -/
theorem loopPassGo_head {V : Type} (p i : Nat) (f : Nat → Option V)
    (rest : List (Nat → Option V)) :
    (loopPassGo p i (f :: rest)).1.head? = some i := by
  simp only [loopPassGo]
  cases hf : f p <;> simp

/-- Every pass of the driving loop re-enters the series at tap 0. -/
theorem loopRun_head {V : Type} (taps : List (Nat → Option V)) (hne : taps ≠ [])
    (fuel q : Nat) : (loopRun taps (fuel + 1) q).1.head? = some (q, 0) := by
  obtain ⟨f, rest, rfl⟩ := List.exists_cons_of_ne_nil hne
  simp only [loopRun]
  by_cases hp : (loopPassGo q 0 (f :: rest)).2
  · rw [if_pos hp]
    have hh := loopPassGo_head q 0 f rest
    cases hl : (loopPassGo q 0 (f :: rest)).1 with
    | nil => rw [hl] at hh; simp at hh
    | cons a as =>
      rw [hl] at hh
      simp at hh
      subst hh
      simp
  · rw [if_neg hp]
    have hh := loopPassGo_head q 0 f rest
    cases hl : (loopPassGo q 0 (f :: rest)).1 with
    | nil => rw [hl] at hh; simp at hh
    | cons a as =>
      rw [hl] at hh
      simp at hh
      subst hh
      simp

/-- C5. Looping-series dispatch: if some tap of pass `p` returns a defined
value (first such at index `pre.length`), the pass stops there, the whole
sequence re-runs from tap 0 in the next pass, and the dispatch continues;
if every tap of pass `p` returns the empty sentinel, the dispatch completes
after exactly that one full pass and the direct-convention dispatcher
delivers no result value (it returns the empty sentinel). -/
theorem c5_looping_retry_until_quiescent {V : Type} (taps : List (Nat → Option V))
    (p fuel : Nat) :
    ((∀ f ∈ taps, f p = none) →
      loopRun taps (fuel + 1) p = ((List.range taps.length).map (fun i => (p, i)), true)) ∧
    (∀ (pre : List (Nat → Option V)) (f : Nat → Option V) (rest : List (Nat → Option V)),
      taps = pre ++ f :: rest → (∀ g ∈ pre, g p = none) → (f p).isSome →
      loopRun taps (fuel + 1) p =
        (((List.range (pre.length + 1)).map (fun i => (p, i))) ++
            (loopRun taps fuel (p + 1)).1,
          (loopRun taps fuel (p + 1)).2) ∧
      ∀ fuel2, (loopRun taps (fuel2 + 1) (p + 1)).1.head? = some (p + 1, 0)) ∧
    ((∀ f ∈ taps, f 0 = none) → syncLoopCall taps (fuel + 1) = some none) := by
  refine ⟨?_, ?_, ?_⟩
  · intro hall
    have hpass := loopPassGo_all_none p taps hall 0
    simp only [loopRun, hpass, Bool.false_eq_true, if_false]
    simp
  · intro pre f rest hsplit hpre hf
    subst hsplit
    have hpass := loopPassGo_first_defined p pre f rest hpre hf 0
    constructor
    · simp only [loopRun, hpass, if_pos]
      simp
    · intro fuel2
      exact loopRun_head (pre ++ f :: rest) (by simp) fuel2 (p + 1)
  · intro hall
    have hpass := loopPassGo_all_none 0 taps hall 0
    unfold syncLoopCall
    simp only [loopRun, hpass, Bool.false_eq_true, if_false]
    simp

theorem c5_witness :
    ((∀ g ∈ ([] : List (Nat → Option Nat)), g 0 = none) ∧
      ((fun p => if p = 0 then some 9 else none) 0).isSome = true) ∧
    loopRun [fun p => if p = 0 then some 9 else none] (1 + 1) 0 =
      (((List.range (List.length ([] : List (Nat → Option Nat)) + 1)).map
          (fun i => ((0 : Nat), i))) ++
          (loopRun [fun p => if p = 0 then some 9 else none] 1 (0 + 1)).1,
        (loopRun [fun p => if p = 0 then some 9 else none] 1 (0 + 1)).2) :=
  ⟨⟨by decide, by decide⟩,
    ((c5_looping_retry_until_quiescent [fun p => if p = 0 then some 9 else none] 0 1).2.1
      [] (fun p => if p = 0 then some 9 else none) [] rfl (by decide) (by decide)).1⟩

/-!
## Hook facade: lazy compilation and cache invalidation

`Hook` starts with `call`/`callAsync`/`promise` pointing at delegates;
invoking a delegate compiles a dispatcher from the current taps and
interceptors, stores it in the corresponding field, and runs it.
`_resetCompilation` restores all three delegates; `_insert` (reached from
every `tap*`) and `intercept` call it first, so any mutation discards every
cached dispatcher. -/

/-- Facade state.  A compiled dispatcher's behavior is determined by the
taps snapshot it captured (`setup` copies `taps.map(t => t.fn)` into `_x`
and the generated code indexes into it), so a cached dispatcher is modelled
by that snapshot; `none` models the delegate, i.e. "not compiled". -/
structure HookState where
  taps : List Tap
  interceptorCount : Nat
  callCache : Option (List Tap)
  callAsyncCache : Option (List Tap)
  promiseCache : Option (List Tap)
  deriving Repr, DecidableEq

/-- The reset `_resetCompilation` (Hook.js lines 157-161). -/
def resetCompilation (h : HookState) : HookState :=
  { h with callCache := none, callAsyncCache := none, promiseCache := none }

/-- Registration `tap`/`tapAsync`/`tapPromise` → `_insert`, which begins with
`_resetCompilation`. -/
def tapOp (h : HookState) (item : Tap) : HookState :=
  let h2 := resetCompilation h
  { h2 with taps := insertTap h2.taps item }

/-- Interception `intercept`: `_resetCompilation`, then push the interceptor. -/
def interceptOp (h : HookState) : HookState :=
  let h2 := resetCompilation h
  { h2 with interceptorCount := h2.interceptorCount + 1 }

/-- One invocation entry point per convention: a delegate (cache `none`)
compiles against the current taps, stores the result, and dispatches with
it; a compiled dispatcher is reused as-is.  Returns the taps snapshot the
dispatch used. -/
def invokeCall (h : HookState) : List Tap × HookState :=
  match h.callCache with
  | some d => (d, h)
  | none => (h.taps, { h with callCache := some h.taps })

def invokeCallAsync (h : HookState) : List Tap × HookState :=
  match h.callAsyncCache with
  | some d => (d, h)
  | none => (h.taps, { h with callAsyncCache := some h.taps })

def invokePromise (h : HookState) : List Tap × HookState :=
  match h.promiseCache with
  | some d => (d, h)
  | none => (h.taps, { h with promiseCache := some h.taps })

/-- C8. After any tap insertion or interceptor registration — in particular
on a hook holding compiled dispatchers — every convention's cache is a
delegate again, and the next invocation of any convention recompiles
against the mutated taps list, which contains the newly inserted tap. -/
theorem c8_mutation_discards_caches (h : HookState) (item : Tap) :
    ((tapOp h item).callCache = none ∧ (tapOp h item).callAsyncCache = none ∧
      (tapOp h item).promiseCache = none) ∧
    ((interceptOp h).callCache = none ∧ (interceptOp h).callAsyncCache = none ∧
      (interceptOp h).promiseCache = none) ∧
    (invokeCall (tapOp h item)).1 = insertTap h.taps item ∧
    (invokeCallAsync (tapOp h item)).1 = insertTap h.taps item ∧
    (invokePromise (tapOp h item)).1 = insertTap h.taps item ∧
    item ∈ (invokeCallAsync (tapOp h item)).1 := by
  refine ⟨⟨rfl, rfl, rfl⟩, ⟨rfl, rfl, rfl⟩, rfl, rfl, rfl, ?_⟩
  show item ∈ insertTap h.taps item
  exact mem_insertTap h.taps item

/-!
## Stack-safety unrolling in `callTapsSeries`

The generator folds taps right-to-left with `current` starting at `onDone`;
at tap `i` it computes `unroll = current !== onDone &&
(this.options.taps[i].type !== "sync" || unrollCounter++ > 20)`; on unroll
it resets the counter, emits `function _next_i() { <current> }`, and makes
`current` an explicit call to `_next_i` — a named continuation unit instead
of a nested inline closure.  After the first iteration `current` is always
a fresh closure, never `onDone` again, and the `&&`/`||` short-circuiting
means the counter only advances at direct ("sync") taps. -/

/-- The unroll decision scan on the reversed tap-kind list (`true` =
direct/"sync"); state is (`current === onDone`, `unrollCounter`).  Produces
one flag per tap in scan order. -/
def unrollFlagsRev : Bool → Nat → List Bool → List Bool
  | _, _, [] => []
  | true, c, _ :: rest => false :: unrollFlagsRev false c rest
  | false, c, isSync :: rest =>
    if !isSync then true :: unrollFlagsRev false 0 rest
    else if c > 20 then true :: unrollFlagsRev false 0 rest
    else false :: unrollFlagsRev false (c + 1) rest

/-- Which taps are wrapped into named `_next` continuation units, indexed
in tap order. -/
def seriesUnrolls (kinds : List Bool) : List Bool :=
  (unrollFlagsRev true 0 kinds.reverse).reverse

theorem unrollFlagsRev_length :
    ∀ (l : List Bool) (b : Bool) (c : Nat), (unrollFlagsRev b c l).length = l.length := by
  intro l
  induction l with
  | nil => intro b c; cases b <;> rfl
  | cons x rest ih =>
    intro b c
    cases b with
    | true => simp [unrollFlagsRev, ih]
    | false =>
      cases x with
      | true =>
        by_cases hc : c > 20
        · simp [unrollFlagsRev, if_pos hc, ih]
        · simp [unrollFlagsRev, if_neg hc, ih]
      | false => simp [unrollFlagsRev, ih]

/-- Once `current` is no longer the terminal continuation, every non-direct
tap position in the scan is unrolled, whatever the counter holds. -/
theorem unrollFlagsRev_nonsync_true :
    ∀ (l : List Bool) (c j : Nat) (hj : j < l.length)
      (hj2 : j < (unrollFlagsRev false c l).length),
      l[j] = false → (unrollFlagsRev false c l)[j] = true := by
  intro l
  induction l with
  | nil =>
    intro c j hj _ _
    simp at hj
  | cons x rest ih =>
    intro c j hj hj2 hval
    cases j with
    | zero =>
      simp only [List.getElem_cons_zero] at hval
      subst hval
      simp [unrollFlagsRev]
    | succ j2 =>
      have hjr : j2 < rest.length := by simpa using hj
      have hvr : rest[j2] = false := by simpa using hval
      cases x with
      | false =>
        simp only [unrollFlagsRev, Bool.not_false, if_true, List.getElem_cons_succ]
        exact ih 0 j2 hjr (by rw [unrollFlagsRev_length]; exact hjr) hvr
      | true =>
        by_cases hc : c > 20
        · simp only [unrollFlagsRev, Bool.not_true, Bool.false_eq_true, if_false, if_pos hc,
            List.getElem_cons_succ]
          exact ih 0 j2 hjr (by rw [unrollFlagsRev_length]; exact hjr) hvr
        · simp only [unrollFlagsRev, Bool.not_true, Bool.false_eq_true, if_false, if_neg hc,
            List.getElem_cons_succ]
          exact ih (c + 1) j2 hjr (by rw [unrollFlagsRev_length]; exact hjr) hvr

/-- C9. In the series topology, whenever the current continuation is not
the terminal one (every tap except the last, since the scan runs
right-to-left) and the tap is non-direct, the chain is unrolled into a
separately named `_next` continuation unit invoked via an explicit call —
in particular any run of 20 consecutive non-direct taps contains an unroll
at every one of them, which is what keeps stack depth bounded regardless of
tap count. -/
theorem c9_nonsync_unroll (kinds : List Bool) (i : Nat) (hi : i < kinds.length)
    (hi2 : i < (seriesUnrolls kinds).length)
    (hterm : i < kinds.length - 1) (hkind : kinds[i] = false) :
    (seriesUnrolls kinds)[i] = true := by
  obtain ⟨k0, tail, htl⟩ : ∃ k0 tail, kinds.reverse = k0 :: tail := by
    cases hrev : kinds.reverse with
    | nil =>
      have hk : kinds = [] := by simpa using congrArg List.reverse hrev
      subst hk
      simp at hi
    | cons a b => exact ⟨a, b, rfl⟩
  have htail_len : tail.length = kinds.length - 1 := by
    have hh := congrArg List.length htl
    simp at hh
    omega
  have hscan : unrollFlagsRev true 0 kinds.reverse = false :: unrollFlagsRev false 0 tail := by
    rw [htl]
    rfl
  have hlen : (unrollFlagsRev true 0 kinds.reverse).length = kinds.length := by
    rw [unrollFlagsRev_length, List.length_reverse]
  have hidx : (unrollFlagsRev true 0 kinds.reverse).length - 1 - i =
      (kinds.length - 2 - i) + 1 := by
    rw [hlen]
    omega
  have hjlt : kinds.length - 2 - i < tail.length := by omega
  have hjlt2 : kinds.length - 2 - i < (unrollFlagsRev false 0 tail).length := by
    rw [unrollFlagsRev_length]
    exact hjlt
  have hval : tail[kinds.length - 2 - i] = false := by
    have hb : (kinds.length - 2 - i) + 1 < kinds.reverse.length := by
      simp only [List.length_reverse]
      omega
    have h1 : kinds.reverse[(kinds.length - 2 - i) + 1] = tail[kinds.length - 2 - i] := by
      simp only [htl, List.getElem_cons_succ]
    have h2 : kinds.reverse[(kinds.length - 2 - i) + 1] = kinds[i] := by
      rw [List.getElem_reverse]
      congr 1
      omega
    rw [← h1, h2, hkind]
  unfold seriesUnrolls
  rw [List.getElem_reverse]
  simp only [hidx]
  simp only [hscan, List.getElem_cons_succ]
  exact unrollFlagsRev_nonsync_true tail 0 (kinds.length - 2 - i) hjlt hjlt2 hval

theorem c9_witness :
    (0 < List.length [false, true] ∧ 0 < (seriesUnrolls [false, true]).length ∧
      0 < List.length [false, true] - 1 ∧ [false, true][0] = false) ∧
    (seriesUnrolls [false, true]).get ⟨0, by decide⟩ = true :=
  ⟨⟨by decide, by decide, by decide, by decide⟩,
    c9_nonsync_unroll [false, true] 0 (by decide) (by decide) (by decide) (by decide)⟩

/-!
## Interceptor `register` application asymmetry -/

/-- The retroactive pass of `intercept` (Hook.js lines 147-151): when the newly registered
interceptor has a `register` handler, each existing tap slot is overwritten
with the handler's return value unconditionally —
`this.taps[i] = interceptor.register(this.taps[i])` — so a handler
returning `undefined` (`none`) leaves `undefined` in the slot. -/
def interceptRegisterPass (reg : Tap → Option Tap) (taps : List Tap) : List (Option Tap) :=
  taps.map reg

/-- The registration-time pass `_runRegisterInterceptors` (Hook.js lines 112-123): at tap-registration
time each interceptor's `register` runs in order, but its return value
replaces the options only when it is not `undefined`
(`if (newOptions !== undefined) options = newOptions`). -/
def runRegisterInterceptors (regs : List (Tap → Option Tap)) (options : Tap) : Tap :=
  regs.foldl
    (fun opts reg =>
      match reg opts with
      | some o => o
      | none => opts)
    options

/-- C10. A register handler returning `undefined` for an existing tap
overwrites that tap's slot with `undefined` during `intercept`, while the
same handler returning `undefined` during a later registration leaves the
incoming tap descriptor unchanged. -/
theorem c10_register_undefined_asymmetry (taps : List Tap) (reg : Tap → Option Tap)
    (i : Nat) (hi : i < taps.length) (hi2 : i < (interceptRegisterPass reg taps).length)
    (hnone : reg taps[i] = none) :
    (interceptRegisterPass reg taps)[i] = none ∧
    ∀ options, reg options = none → runRegisterInterceptors [reg] options = options := by
  constructor
  · unfold interceptRegisterPass
    rw [List.getElem_map, hnone]
  · intro o ho
    simp [runRegisterInterceptors, ho]

theorem c10_witness :
    (0 < List.length [({ name := "t" } : Tap)] ∧
      (fun (_ : Tap) => (none : Option Tap)) ([({ name := "t" } : Tap)][0]) = none) ∧
    (interceptRegisterPass (fun _ => none) [({ name := "t" } : Tap)]).get ⟨0, by decide⟩ = none :=
  ⟨⟨by decide, rfl⟩,
    (c10_register_undefined_asymmetry [{ name := "t" }] (fun _ => none) 0
      (by decide) (by decide) rfl).1⟩

end Tapable
